import Mathlib

/-!
Shallow embedding of the resource-locking subsystem of pentf
(src/plugins/node.js, second half of the file: annotateTaskResources, init,
shutdown, acquire, acquireEventually, release, listConflicts).

The Local Lock Set (a JS `Set` of strings) is modelled as a duplicate-free
`List String`; `Set.prototype.add` is insert-if-absent at the end,
`Set.prototype.delete` removes the element.  The External Coordination Client
is modelled as a function argument returning an `ExtResult` (the JS promise
resolving to `true`, resolving to a conflict descriptor, or rejecting with a
transport error); each operation additionally records the list of external
calls it made, so that "the client is never invoked" is an observable fact of
the model.
-/

set_option autoImplicit false

namespace Pentf

/-- Configuration flags read by the locking subsystem. -/
structure Config where
  no_locking : Bool
  no_external_locking : Bool
  locking_verbose : Bool
  log_file : Bool
deriving DecidableEq

/-- A task: stable identifier plus the ordered list of resource names it
declares. -/
structure Task where
  id : String
  resources : List String
deriving DecidableEq

/-- Conflict descriptor returned by the external locking service on denial
(the `Lock` typedef in the source: resource, expireIn, client). -/
structure Lock where
  resource : String
  expireIn : Nat
  client : String
deriving DecidableEq

/-- Result of one external locking call: the promise resolves to `true`,
resolves to a conflict descriptor, or rejects with a transport error. -/
inductive ExtResult where
  | ok
  | conflict (descriptor : Lock)
  | transportError (message : String)
deriving DecidableEq

/-- Whether an external call succeeded (`acquireRes === true` in the source). -/
def ExtResult.isOk : ExtResult → Bool
  | ExtResult.ok => true
  | _ => false

/-- `Set.prototype.add`: inserting an element already present leaves the set
unchanged. -/
def addLock (locks : List String) (r : String) : List String :=
  if locks.contains r then locks else locks ++ [r]

/-- The loop `for (const r of task.resources) locks.add(r)` on the acquire
success path. -/
def addAll (locks : List String) (rs : List String) : List String :=
  rs.foldl addLock locks

/-- `Set.prototype.delete` on the duplicate-free representation. -/
def deleteLock (locks : List String) (r : String) : List String :=
  locks.filter (fun x => x != r)

/-- Outcome of one `acquire` call: returned boolean, lock set afterwards, and
the external acquire calls made (resource batch, lease milliseconds). -/
structure AcquireOutcome where
  result : Bool
  locks : List String
  extCalls : List (List String × Nat)
deriving DecidableEq

/-- `acquire(config, state, task)`: succeed at once with no side effect when
locking is globally disabled or the task declares no resources; fail at once
when a declared resource is already locally held; otherwise, unless external
locking is disabled, make the single batched external call with lease 40000 ms
(a conflict descriptor or a rejected promise both yield `false` with no
mutation, the rejection being caught and never rethrown); on success add every
declared resource to the lock set and return `true`. -/
def acquire (config : Config) (locks : List String) (task : Task)
    (externalAcquire : List String → Nat → ExtResult) : AcquireOutcome :=
  if config.no_locking then ⟨true, locks, []⟩
  else if task.resources.isEmpty then ⟨true, locks, []⟩
  else if task.resources.any (fun r => locks.contains r) then ⟨false, locks, []⟩
  else if config.no_external_locking then ⟨true, addAll locks task.resources, []⟩
  else
    match externalAcquire task.resources 40000 with
    | ExtResult.ok => ⟨true, addAll locks task.resources, [(task.resources, 40000)]⟩
    | ExtResult.conflict _ => ⟨false, locks, [(task.resources, 40000)]⟩
    | ExtResult.transportError _ => ⟨false, locks, [(task.resources, 40000)]⟩

/-- The retry loop of `acquireEventually`, fuel-bounded.  `attempt k` is the
boolean outcome of the (k+1)-th `acquire` call; the returned list holds the
sleep durations performed between failed attempts, in order.  `waitTime`
starts at 50 and is updated to `min 10000 (waitTime * 2)` after each sleep. -/
def acquireLoop (attempt : Nat → Bool) : Nat → Nat → Nat → Option (List Nat)
  | _, _, 0 => none
  | waitTime, k, fuel + 1 =>
    if attempt k then some []
    else
      match acquireLoop attempt (min 10000 (waitTime * 2)) (k + 1) fuel with
      | none => none
      | some rest => some (waitTime :: rest)

/-- `acquireEventually(config, state, task)`: immediately true when locking is
globally disabled; otherwise repeats `acquire` until it returns true, sleeping
between attempts.  Returns the final boolean together with the sleeps
performed, or `none` when the fuel bound is hit (the source loops without
bound). -/
def acquireEventually (config : Config) (attempt : Nat → Bool) (fuel : Nat) :
    Option (Bool × List Nat) :=
  if config.no_locking then some (true, [])
  else
    match acquireLoop attempt 50 0 fuel with
    | none => none
    | some sleeps => some (true, sleeps)

/-- Outcome of one `release` call: the fatal assertion failure if one was
raised (carrying the offending resource name), the lock set at the moment the
call returned or the assertion fired, and the external release calls made. -/
structure ReleaseOutcome where
  fatal : Option String
  locks : List String
  extCalls : List (List String)
deriving DecidableEq

/-- The release loop: per resource, assert it is locally held (a failed
assertion aborts the loop there, with the deletions already performed kept),
then delete it. -/
def removeAllSeq : List String → List String → Option String × List String
  | locks, [] => (none, locks)
  | locks, r :: rest =>
    if locks.contains r then removeAllSeq (deleteLock locks r) rest
    else (some r, locks)

/-- `release(config, state, task)`: no-op when locking is globally disabled or
the task declares no resources; otherwise, unless external locking is
disabled, make the single external release call, whose conflict-descriptor
response or rejection is logged and swallowed; then run the per-resource
assert-and-delete loop on the local lock set. -/
def release (config : Config) (locks : List String) (task : Task)
    (externalRelease : List String → ExtResult) : ReleaseOutcome :=
  if config.no_locking then ⟨none, locks, []⟩
  else if task.resources.isEmpty then ⟨none, locks, []⟩
  else if config.no_external_locking then
    ⟨(removeAllSeq locks task.resources).1, (removeAllSeq locks task.resources).2, []⟩
  else
    match externalRelease task.resources with
    | ExtResult.ok =>
      ⟨(removeAllSeq locks task.resources).1, (removeAllSeq locks task.resources).2,
        [task.resources]⟩
    | ExtResult.conflict _ =>
      ⟨(removeAllSeq locks task.resources).1, (removeAllSeq locks task.resources).2,
        [task.resources]⟩
    | ExtResult.transportError _ =>
      ⟨(removeAllSeq locks task.resources).1, (removeAllSeq locks task.resources).2,
        [task.resources]⟩

/-- Outcome of `shutdown`: whether the external client was torn down, whether
the empty-set assertion failed, and the lock set (unchanged: the statement
`state.locks.length = 0` in the source sets a stray property on the `Set`
object and removes no element, so `state.locks.size` is unaffected when the
assertion runs). -/
structure ShutdownOutcome where
  externalShutdownCalled : Bool
  fatal : Bool
  locks : List String
deriving DecidableEq

/-- `shutdown(config, state)`: tear down the external client, then assert that
the local lock set is empty. -/
def shutdown (locks : List String) : ShutdownOutcome :=
  ⟨true, !(locks.length == 0), locks⟩

/-- One character of the class `[-A-Za-z_0-9]`. -/
def isResourceChar (c : Char) : Bool :=
  c == '-' || ('A' ≤ c && c ≤ 'Z') || c == '_' || ('a' ≤ c && c ≤ 'z')
    || ('0' ≤ c && c ≤ '9')

/-- The regex `/^[-A-Za-z_0-9]+$/`: one or more characters of the class. -/
def validResourceName (s : String) : Bool :=
  !s.isEmpty && s.data.all isResourceChar

/-- `annotateTaskResources(config, task)`: skipped entirely when locking is
globally disabled; otherwise asserts every declared resource name matches the
syntax, failing fatally at the first invalid one with the task id and the
offending name.  A pure check: it takes no lock state and returns none. -/
def annotateTaskResources (config : Config) (task : Task) :
    Option (String × String) :=
  if config.no_locking then none
  else
    match task.resources.find? (fun r => !validResourceName r) with
    | none => none
    | some r => some (task.id, r)

/-- `tasksByResource.get(r)` grouping step of `listConflicts`: append the task
id under the key `r`, creating the entry at the end on first sight of `r`
(JS `Map` preserves key insertion order). -/
def addToGroup : List (String × List String) → String → String →
    List (String × List String)
  | [], r, tid => [(r, [tid])]
  | (rk, tids) :: rest, r, tid =>
    if rk == r then (rk, tids ++ [tid]) :: rest
    else (rk, tids) :: addToGroup rest r tid

/-- The grouping pass of `listConflicts`: for every task, for every declared
resource, record the task under that resource. -/
def tasksByResource (tasks : List Task) : List (String × List String) :=
  tasks.foldl (fun m t => t.resources.foldl (fun m r => addToGroup m r t.id) m) []

/-- `listConflicts(config, tasks)`: report every grouped resource whose entry
list has length other than one, as (resource, ids of the declaring tasks). -/
def listConflicts (tasks : List Task) : List (String × List String) :=
  (tasksByResource tasks).filter (fun p => p.2.length != 1)

/-- Specification-side view for the conflict analyzer: all declaration
occurrences of resource `r` across a batch, as the ids of the declaring tasks,
with multiplicity and in traversal order. -/
def occList : List Task → String → List String
  | [], _ => []
  | t :: ts, r =>
    (t.resources.filter (fun x => x == r)).map (fun _ => t.id) ++ occList ts r

/-- Keys of an association list. -/
def groupVals (m : List (String × List String)) (r : String) : List String :=
  match m.find? (fun p => p.1 == r) with
  | none => []
  | some p => p.2

/-- Invariant of the grouping map: no empty entry, keys distinct. -/
def goodGroups (m : List (String × List String)) : Prop :=
  (∀ p ∈ m, p.2 ≠ []) ∧ (m.map Prod.fst).Nodup

/-- A configuration with locking enabled and external locking disabled. -/
def cfgNoExt : Config := ⟨false, true, false, false⟩

/-- A configuration with locking and external locking both enabled. -/
def cfgExt : Config := ⟨false, false, false, false⟩

/-- A configuration with locking globally disabled. -/
def cfgOff : Config := ⟨true, false, false, false⟩

/-- A stub external client that always grants. -/
def extOk2 : List String → Nat → ExtResult := fun _ _ => ExtResult.ok

/-- A stub external client that always grants (release shape). -/
def extOk1 : List String → ExtResult := fun _ => ExtResult.ok

/-- A stub external release client that always rejects (transport error). -/
def extErr1 : List String → ExtResult := fun _ => ExtResult.transportError ("down")

/-- A stub external acquire client that always rejects (transport error). -/
def extErr2 : List String → Nat → ExtResult :=
  fun _ _ => ExtResult.transportError ("down")

/-! Helper lemmas about the lock-set operations. -/

theorem contains_iff_mem (l : List String) (a : String) :
    l.contains a = true ↔ a ∈ l := by
  simp [List.contains, List.elem_iff]

theorem contains_eq_decide_mem (l : List String) (a : String) :
    l.contains a = decide (a ∈ l) := by
  simp [List.contains, List.elem_eq_mem]

theorem mem_addLock (locks : List String) (x r : String) :
    r ∈ addLock locks x ↔ r ∈ locks ∨ r = x := by
  unfold addLock
  by_cases h : x ∈ locks
  · rw [if_pos ((contains_iff_mem locks x).mpr h)]
    constructor
    · exact Or.inl
    · rintro (hr | rfl)
      · exact hr
      · exact h
  · rw [if_neg (fun hc => h ((contains_iff_mem locks x).mp hc))]
    simp [List.mem_append]

theorem mem_addAll (rs : List String) : ∀ (locks : List String) (r : String),
    r ∈ addAll locks rs ↔ r ∈ locks ∨ r ∈ rs := by
  induction rs with
  | nil => intro locks r; simp [addAll]
  | cons x rest ih =>
    intro locks r
    show r ∈ addAll (addLock locks x) rest ↔ _
    rw [ih (addLock locks x) r, mem_addLock]
    simp [List.mem_cons]
    tauto

theorem contains_addAll_of_mem (rs locks : List String) (r : String)
    (h : r ∈ rs) : (addAll locks rs).contains r = true :=
  (contains_iff_mem _ r).mpr ((mem_addAll rs locks r).mpr (Or.inr h))

theorem nonempty_of_mem (rs : List String) (r : String) (h : r ∈ rs) :
    rs.isEmpty = false := by
  cases rs with
  | nil => cases h
  | cons x rest => rfl

theorem acquire_fails_on_held (config : Config) (locks : List String)
    (task : Task) (ea : List String → Nat → ExtResult) (r : String)
    (hnl : config.no_locking = false) (hr : r ∈ task.resources)
    (hc : locks.contains r = true) :
    acquire config locks task ea = ⟨false, locks, []⟩ := by
  have hne := nonempty_of_mem task.resources r hr
  have hany : task.resources.any (fun x => locks.contains x) = true :=
    List.any_eq_true.mpr ⟨r, hr, hc⟩
  simp only [acquire, hnl, hne, hany, Bool.false_eq_true, if_false, if_true]

theorem acquire_success_adds (config : Config) (locks : List String)
    (task : Task) (ea : List String → Nat → ExtResult)
    (hnl : config.no_locking = false)
    (hsucc : (acquire config locks task ea).result = true) (r : String)
    (hr : r ∈ task.resources) :
    ((acquire config locks task ea).locks).contains r = true := by
  have hne := nonempty_of_mem task.resources r hr
  unfold acquire at hsucc ⊢
  rw [if_neg (by simp [hnl]), if_neg (by simp [hne])] at hsucc ⊢
  by_cases hany : task.resources.any (fun x => locks.contains x) = true
  · rw [if_pos hany] at hsucc
    simp at hsucc
  · rw [if_neg hany] at hsucc ⊢
    by_cases hnex : config.no_external_locking = true
    · rw [if_pos hnex]
      exact contains_addAll_of_mem task.resources locks r hr
    · rw [if_neg hnex] at hsucc ⊢
      cases hea : ea task.resources 40000 with
      | ok => exact contains_addAll_of_mem task.resources locks r hr
      | conflict d => rw [hea] at hsucc; simp at hsucc
      | transportError m => rw [hea] at hsucc; simp at hsucc

theorem contains_filter_false (locks : List String) (p : String → Bool)
    (r : String) (h : locks.contains r = false) :
    (locks.filter p).contains r = false := by
  rw [contains_eq_decide_mem] at h ⊢
  simp only [decide_eq_false_iff_not] at h ⊢
  exact fun hm => h (List.mem_filter.mp hm).1

theorem contains_of_contains_filter (locks : List String) (p : String → Bool)
    (r : String) (h : (locks.filter p).contains r = true) :
    locks.contains r = true := by
  rw [contains_iff_mem] at h ⊢
  exact (List.mem_filter.mp h).1

theorem contains_deleteLock_ne (locks : List String) (x r : String)
    (hne : x ≠ r) (h : locks.contains x = true) :
    (deleteLock locks r).contains x = true := by
  rw [contains_iff_mem] at h ⊢
  exact List.mem_filter.mpr ⟨h, bne_iff_ne.mpr hne⟩

theorem filter_not_contains_nil (locks : List String) :
    locks.filter (fun x => !(List.contains [] x)) = locks :=
  List.filter_eq_self.mpr (fun _ _ => rfl)

theorem filter_deleteLock (locks rest : List String) (r : String) :
    (deleteLock locks r).filter (fun x => !rest.contains x)
      = locks.filter (fun x => !((r :: rest).contains x)) := by
  rw [deleteLock, List.filter_filter]
  apply List.filter_congr
  intro a _
  by_cases har : a = r <;>
    simp [har, List.contains_cons, Bool.not_or, bne, Bool.and_comm]

theorem removeAllSeq_missing (rs : List String) : ∀ (locks : List String),
    (∃ r ∈ rs, locks.contains r = false) →
    (removeAllSeq locks rs).1.isSome = true := by
  induction rs with
  | nil => rintro locks ⟨r, hr, _⟩; cases hr
  | cons r0 rest ih =>
    rintro locks ⟨r, hr, hc⟩
    by_cases h0 : locks.contains r0 = true
    · rw [removeAllSeq, if_pos h0]
      rcases List.mem_cons.mp hr with rfl | hrest
      · rw [hc] at h0; cases h0
      · exact ih (deleteLock locks r0)
          ⟨r, hrest, contains_filter_false locks _ r hc⟩
    · rw [removeAllSeq, if_neg h0]
      rfl

theorem removeAllSeq_none (rs : List String) : ∀ (locks l : List String),
    removeAllSeq locks rs = (none, l) →
    l = locks.filter (fun x => !rs.contains x) := by
  induction rs with
  | nil =>
    intro locks l h
    rw [removeAllSeq] at h
    injection h with _ h2
    rw [← h2, filter_not_contains_nil]
  | cons r0 rest ih =>
    intro locks l h
    by_cases h0 : locks.contains r0 = true
    · rw [removeAllSeq, if_pos h0] at h
      rw [ih (deleteLock locks r0) l h, filter_deleteLock]
    · rw [removeAllSeq, if_neg h0] at h
      injection h with h1
      cases h1

theorem removeAllSeq_some (rs : List String) : ∀ (locks l : List String)
    (r : String), removeAllSeq locks rs = (some r, l) →
    r ∈ rs ∧ l.contains r = false ∧
      ∀ x, l.contains x = true → locks.contains x = true := by
  induction rs with
  | nil =>
    intro locks l r h
    rw [removeAllSeq] at h
    injection h with h1
    cases h1
  | cons r0 rest ih =>
    intro locks l r h
    by_cases h0 : locks.contains r0 = true
    · rw [removeAllSeq, if_pos h0] at h
      obtain ⟨hmem, hnc, hsub⟩ := ih (deleteLock locks r0) l r h
      exact ⟨List.mem_cons_of_mem r0 hmem, hnc,
        fun x hx => contains_of_contains_filter locks _ x (hsub x hx)⟩
    · rw [removeAllSeq, if_neg h0] at h
      injection h with h1 h2
      injection h1 with h1
      subst h1; subst h2
      exact ⟨List.mem_cons_self r0 rest,
        Bool.not_eq_true _ |>.mp h0, fun x hx => hx⟩

theorem removeAllSeq_nodup_all (rs : List String) : ∀ (locks : List String),
    rs.Nodup → (∀ r ∈ rs, locks.contains r = true) →
    removeAllSeq locks rs = (none, locks.filter (fun x => !rs.contains x)) := by
  induction rs with
  | nil =>
    intro locks _ _
    rw [removeAllSeq, filter_not_contains_nil]
  | cons r0 rest ih =>
    intro locks hnd hall
    have h0 : locks.contains r0 = true := hall r0 (List.mem_cons_self r0 rest)
    rw [removeAllSeq, if_pos h0,
      ih (deleteLock locks r0) (List.Nodup.of_cons hnd) (fun r hr =>
        contains_deleteLock_ne locks r r0
          (fun heq => (List.nodup_cons.mp hnd).1 (heq ▸ hr))
          (hall r (List.mem_cons_of_mem r0 hr))),
      filter_deleteLock]

theorem release_eq (config : Config) (locks : List String) (task : Task)
    (er : List String → ExtResult)
    (hnl : config.no_locking = false) (hne : task.resources.isEmpty = false) :
    release config locks task er =
      ⟨(removeAllSeq locks task.resources).1,
        (removeAllSeq locks task.resources).2,
        if config.no_external_locking then [] else [task.resources]⟩ := by
  unfold release
  rw [if_neg (by simp [hnl]), if_neg (by simp [hne])]
  by_cases hnex : config.no_external_locking = true
  · rw [if_pos hnex, if_pos hnex]
  · rw [if_neg hnex, if_neg hnex]
    cases er task.resources <;> rfl

/-! Claim theorems. -/

/-- C1: with locking enabled, if any declared resource of a task is already in
the Local Lock Set, `acquire` returns false without invoking the External
Coordination Client and without mutating the set; consequently, after task A
acquires successfully, any task B sharing a resource with A gets
`acquire = false` with the set unchanged (so repeated attempts keep failing)
until A releases. -/
theorem acquire_local_conflict (config : Config)
    (hnl : config.no_locking = false) :
    (∀ (locks : List String) (task : Task)
        (ea : List String → Nat → ExtResult) (r : String),
      r ∈ task.resources → locks.contains r = true →
      acquire config locks task ea = ⟨false, locks, []⟩) ∧
    (∀ (locks : List String) (tA tB : Task)
        (eaA eaB : List String → Nat → ExtResult) (r : String),
      r ∈ tA.resources → r ∈ tB.resources →
      (acquire config locks tA eaA).result = true →
      acquire config ((acquire config locks tA eaA).locks) tB eaB
        = ⟨false, (acquire config locks tA eaA).locks, []⟩) :=
  ⟨fun locks task ea r hr hc =>
      acquire_fails_on_held config locks task ea r hnl hr hc,
   fun locks tA tB eaA eaB r hrA hrB hsucc =>
      acquire_fails_on_held config _ tB eaB r hnl hrB
        (acquire_success_adds config locks tA eaA hnl hsucc r hrA)⟩

/-- C1 witness: after task A acquires r1 (external locking disabled), task B
sharing r1 fails, with the lock set unchanged and no external call made. -/
theorem acquire_local_conflict_witness :
    acquire cfgNoExt ((acquire cfgNoExt [] ⟨"A", ["r1"]⟩ extOk2).locks)
        ⟨"B", ["r1"]⟩ extOk2
      = ⟨false, (acquire cfgNoExt [] ⟨"A", ["r1"]⟩ extOk2).locks, []⟩ :=
  (acquire_local_conflict cfgNoExt rfl).2 [] ⟨"A", ["r1"]⟩ ⟨"B", ["r1"]⟩
    extOk2 extOk2 ("r1") (by decide) (by decide) (by decide)

/-- C2: with locking enabled, external locking enabled, and no declared
resource locally held, `acquire` makes exactly one batched external lease call
covering the whole resource list with lease duration 40000 ms; it returns true
exactly when that call succeeds, in which case every declared resource has
been added to the lock set; on a conflict descriptor or a transport error (the
rejected promise, caught by the source — `acquire` is a total function and
never propagates it) it returns false with the lock set unchanged. -/
theorem acquire_external_step (config : Config) (locks : List String)
    (task : Task) (ea : List String → Nat → ExtResult)
    (hnl : config.no_locking = false) (hne : config.no_external_locking = false)
    (hnonempty : task.resources ≠ [])
    (hfree : task.resources.all (fun r => !locks.contains r) = true) :
    (acquire config locks task ea).extCalls = [(task.resources, 40000)] ∧
    (acquire config locks task ea).result = (ea task.resources 40000).isOk ∧
    (acquire config locks task ea).locks =
      (if (ea task.resources 40000).isOk = true then addAll locks task.resources
       else locks) ∧
    task.resources.all
      (fun r => (addAll locks task.resources).contains r) = true := by
  have hEmpty : task.resources.isEmpty = false :=
    Bool.not_eq_true _ |>.mp (fun h => hnonempty (List.isEmpty_iff.mp h))
  have hany : task.resources.any (fun x => locks.contains x) = false :=
    List.any_eq_false.mpr (fun x hx hcon => by
      have hfx : (!locks.contains x) = true := List.all_eq_true.mp hfree x hx
      have hcon' : locks.contains x = true := hcon
      rw [hcon'] at hfx
      simp at hfx)
  have hforall : task.resources.all
      (fun r => (addAll locks task.resources).contains r) = true :=
    List.all_eq_true.mpr
      (fun r hr => contains_addAll_of_mem task.resources locks r hr)
  refine ⟨?_, ?_, ?_, hforall⟩ <;>
  · simp only [acquire, hnl, hEmpty, hany, hne, Bool.false_eq_true, if_false]
    cases hea : ea task.resources 40000 <;> simp [ExtResult.isOk]

/-- C2 witness: a transport error yields one batched call with lease 40000 ms
(and, by the other conjuncts, false with no local mutation). -/
theorem acquire_external_step_witness :
    (acquire cfgExt [] ⟨"T", ["r1"]⟩ extErr2).extCalls = [(["r1"], 40000)] :=
  (acquire_external_step cfgExt [] ⟨"T", ["r1"]⟩ extErr2 rfl rfl (by decide)
    (by decide)).1

/-- C3 counterexample: releasing declared resources a,b while holding only a
raises the fatal failure at b, yet a has already been removed at that point,
so the local removal is not all-or-nothing as the claim states. -/
theorem release_not_atomic_cex :
    (release cfgNoExt ["a"] ⟨"T", ["a", "b"]⟩ extOk1).fatal = some ("b") ∧
    (release cfgNoExt ["a"] ⟨"T", ["a", "b"]⟩ extOk1).locks = [] := by decide

/-- C3 (amended): with locking enabled, `release` fails fatally if any
declared resource is not currently in the Local Lock Set, but the local
removal is sequential per resource rather than all-or-nothing: when the fatal
failure is raised the offending resource is a declared one absent at that
point and the surviving set is a subset of the original (the resources
scanned earlier having already been removed), and when no failure is raised
exactly the declared resources have been removed. -/
theorem release_sequential (config : Config) (locks : List String)
    (task : Task) (er : List String → ExtResult)
    (hnl : config.no_locking = false) :
    (task.resources.any (fun r => !locks.contains r) = true →
      (release config locks task er).fatal.isSome = true) ∧
    ((release config locks task er).fatal = none →
      (release config locks task er).locks
        = locks.filter (fun x => !task.resources.contains x)) ∧
    (∀ r, (release config locks task er).fatal = some r →
      r ∈ task.resources ∧
      (release config locks task er).locks.contains r = false ∧
      (release config locks task er).locks.all
        (fun x => locks.contains x) = true) := by
  by_cases hEmpty : task.resources.isEmpty = true
  · have hres : task.resources = [] := List.isEmpty_iff.mp hEmpty
    have hrel : release config locks task er = ⟨none, locks, []⟩ := by
      simp [release, hEmpty, hnl]
    refine ⟨?_, ?_, ?_⟩
    · intro hany
      rw [hres] at hany
      cases hany
    · intro _
      rw [hrel, hres, filter_not_contains_nil]
    · intro r hfat
      rw [hrel] at hfat
      cases hfat
  · have hne : task.resources.isEmpty = false := Bool.not_eq_true _ |>.mp hEmpty
    have hrel := release_eq config locks task er hnl hne
    cases hrs : removeAllSeq locks task.resources with
    | mk f l =>
      rw [hrs] at hrel
      refine ⟨?_, ?_, ?_⟩
      · intro hany
        obtain ⟨r, hr, hcr⟩ := List.any_eq_true.mp hany
        have hcr' : locks.contains r = false := by
          cases hc : locks.contains r
          · rfl
          · rw [hc] at hcr; cases hcr
        have hm := removeAllSeq_missing task.resources locks ⟨r, hr, hcr'⟩
        rw [hrs] at hm
        rw [hrel]
        exact hm
      · intro hfat
        rw [hrel] at hfat ⊢
        have hf : f = none := hfat
        rw [hf] at hrs
        exact removeAllSeq_none task.resources locks l hrs
      · intro r hfat
        rw [hrel] at hfat ⊢
        have hf : f = some r := hfat
        rw [hf] at hrs
        obtain ⟨hmem, hnc, hsub⟩ :=
          removeAllSeq_some task.resources locks l r hrs
        exact ⟨hmem, hnc, List.all_eq_true.mpr (fun x hx =>
          hsub x ((contains_iff_mem _ x).mpr hx))⟩

/-- C3 witness: releasing a,b while holding a,b,c succeeds and leaves exactly
the other lock. -/
theorem release_sequential_witness :
    (release cfgNoExt ["a", "b", "c"] ⟨"T", ["a", "b"]⟩ extOk1).locks
      = List.filter (fun x => !(List.contains ["a", "b"] x)) ["a", "b", "c"] :=
  (release_sequential cfgNoExt ["a", "b", "c"] ⟨"T", ["a", "b"]⟩ extOk1
    rfl).2.1 (by decide)

/-- C4 counterexample: every declared resource of the task (which declares a
twice) is in the Local Lock Set, yet `release` raises a fatal assertion
failure — so as universally stated, with an external transport error swallowed
but a duplicated declaration, an error does reach the caller. -/
theorem release_dup_held_cex :
    (List.all (Task.resources ⟨"T", ["a", "a"]⟩)
      (fun r => List.contains ["a"] r)) = true ∧
    (release cfgExt ["a"] ⟨"T", ["a", "a"]⟩ extErr1).fatal = some ("a") := by
  decide

/-- C4 (amended): for a task whose declared resources are pairwise distinct
and all currently in the Local Lock Set, with locking and external locking
enabled, whatever the external release call returns — success, conflict
descriptor, or transport error (`er` is universally quantified and absent from
the conclusion) — no error reaches the caller, exactly the declared resources
are removed from the set, and (when at least one resource is declared) exactly
one batched external release call is made. -/
theorem release_swallows_external (config : Config) (locks : List String)
    (task : Task) (er : List String → ExtResult)
    (hnl : config.no_locking = false)
    (hnex : config.no_external_locking = false)
    (hnd : task.resources.Nodup)
    (hall : task.resources.all (fun r => locks.contains r) = true) :
    (release config locks task er).fatal = none ∧
    (release config locks task er).locks
      = locks.filter (fun x => !task.resources.contains x) ∧
    (task.resources ≠ [] →
      (release config locks task er).extCalls = [task.resources]) := by
  by_cases hEmpty : task.resources.isEmpty = true
  · have hres : task.resources = [] := List.isEmpty_iff.mp hEmpty
    have hrel : release config locks task er = ⟨none, locks, []⟩ := by
      simp [release, hEmpty, hnl]
    refine ⟨by rw [hrel], ?_, fun hcon => absurd hres hcon⟩
    rw [hrel, hres, filter_not_contains_nil]
  · have hne : task.resources.isEmpty = false := Bool.not_eq_true _ |>.mp hEmpty
    have hrel := release_eq config locks task er hnl hne
    have hrem := removeAllSeq_nodup_all task.resources locks hnd
      (fun r hr => List.all_eq_true.mp hall r hr)
    rw [hrel, hrem]
    exact ⟨rfl, rfl, fun _ => by simp [hnex]⟩

/-- C4 witness: a transport error on external release is swallowed. -/
theorem release_swallows_external_witness :
    (release cfgExt ["a", "b"] ⟨"T", ["a"]⟩ extErr1).fatal = none :=
  (release_swallows_external cfgExt ["a", "b"] ⟨"T", ["a"]⟩ extErr1 rfl rfl
    (by decide) (by decide)).1

/-- C10: a task declaring the same (otherwise free) resource name twice
acquires successfully — the Local Lock Set deduplicates — but the matching
release fails fatally at the second occurrence of the duplicated name, leaving
the lock set back at its pre-acquire contents. -/
theorem duplicate_resource_release_fatal (config : Config)
    (locks : List String) (r : String) (task : Task)
    (ea : List String → Nat → ExtResult) (er : List String → ExtResult)
    (hnl : config.no_locking = false) (hres : task.resources = [r, r])
    (hfree : locks.contains r = false)
    (hext : config.no_external_locking = true ∨
      ea task.resources 40000 = ExtResult.ok) :
    (acquire config locks task ea).result = true ∧
    (release config ((acquire config locks task ea).locks) task er).fatal
      = some r ∧
    (release config ((acquire config locks task ea).locks) task er).locks
      = locks := by
  have hEmpty : task.resources.isEmpty = false := by rw [hres]; rfl
  have hnm : r ∉ locks := fun hm => by
    rw [(contains_iff_mem locks r).mpr hm] at hfree
    cases hfree
  have hnc : ¬(locks.contains r = true) :=
    fun hc => hnm ((contains_iff_mem locks r).mp hc)
  have h1 : addLock locks r = locks ++ [r] := by
    rw [addLock, if_neg hnc]
  have h2 : addLock (locks ++ [r]) r = locks ++ [r] := by
    rw [addLock, if_pos ((contains_iff_mem _ r).mpr (by simp))]
  have haddAll : addAll locks task.resources = locks ++ [r] := by
    rw [hres]
    show addLock (addLock locks r) r = locks ++ [r]
    rw [h1, h2]
  have hanyfalse : ¬(task.resources.any (fun x => locks.contains x) = true) := by
    intro h
    obtain ⟨x, hx, hcx⟩ := List.any_eq_true.mp h
    rw [hres] at hx
    have hxr : x = r := by simpa using hx
    rw [hxr] at hcx
    exact hnc hcx
  have hkey : (acquire config locks task ea).result = true ∧
      (acquire config locks task ea).locks = locks ++ [r] := by
    unfold acquire
    rw [if_neg (by simp [hnl]), if_neg (by simp [hEmpty]), if_neg hanyfalse]
    by_cases hnex : config.no_external_locking = true
    · rw [if_pos hnex]
      exact ⟨rfl, haddAll⟩
    · rw [if_neg hnex]
      rcases hext with hx | hx
      · exact absurd hx hnex
      · rw [hx]
        exact ⟨rfl, haddAll⟩
  have hc2 : (locks ++ [r]).contains r = true := by
    rw [contains_iff_mem]; simp
  have hdel : deleteLock (locks ++ [r]) r = locks := by
    rw [deleteLock, List.filter_append]
    have hf1 : locks.filter (fun x => x != r) = locks :=
      List.filter_eq_self.mpr (fun a ha => bne_iff_ne.mpr (fun heq => by
        rw [heq] at ha
        exact hnm ha))
    have hf2 : List.filter (fun x => x != r) [r] = [] := by simp
    rw [hf1, hf2, List.append_nil]
  have hstep : removeAllSeq (locks ++ [r]) (task.resources) = (some r, locks) := by
    rw [hres]
    rw [removeAllSeq, if_pos hc2, hdel, removeAllSeq, if_neg hnc]
  have hrel := release_eq config (locks ++ [r]) task er hnl hEmpty
  rw [hkey.2, hrel, hstep]
  exact ⟨hkey.1, rfl, rfl⟩

theorem backoff_min_double (j : Nat) :
    min 10000 (min 10000 (50 * 2 ^ j) * 2) = min 10000 (50 * 2 ^ (j + 1)) := by
  have h : 50 * 2 ^ (j + 1) = 50 * 2 ^ j * 2 := by ring
  rw [h]
  generalize 50 * 2 ^ j = x
  omega

theorem acquireLoop_spec : ∀ (fuel : Nat) (attempt : Nat → Bool) (k : Nat)
    (sleeps : List Nat),
    acquireLoop attempt (min 10000 (50 * 2 ^ k)) k fuel = some sleeps →
    sleeps = (List.range sleeps.length).map
      (fun i => min 10000 (50 * 2 ^ (k + i))) ∧
    attempt (k + sleeps.length) = true ∧
    (∀ j, j < sleeps.length → attempt (k + j) = false) := by
  intro fuel
  induction fuel with
  | zero => intro attempt k sleeps h; cases h
  | succ fuel ih =>
    intro attempt k sleeps h
    rw [acquireLoop] at h
    cases hk : attempt k with
    | true =>
      rw [hk, if_pos rfl] at h
      injection h with h
      subst h
      refine ⟨rfl, ?_, ?_⟩
      · simpa using hk
      · intro j hj; cases hj
    | false =>
      rw [hk] at h
      simp only [Bool.false_eq_true, if_false] at h
      rw [backoff_min_double k] at h
      cases hrec : acquireLoop attempt (min 10000 (50 * 2 ^ (k + 1))) (k + 1)
          fuel with
      | none => rw [hrec] at h; cases h
      | some rest =>
        rw [hrec] at h
        injection h with h
        subst h
        obtain ⟨hform, hsucc, hfail⟩ := ih attempt (k + 1) rest hrec
        refine ⟨?_, ?_, ?_⟩
        · show _ = (List.range (rest.length + 1)).map
            (fun i => min 10000 (50 * 2 ^ (k + i)))
          rw [List.range_succ_eq_map, List.map_cons, List.map_map]
          have hhead : min 10000 (50 * 2 ^ (k + 0)) = min 10000 (50 * 2 ^ k) := by
            rw [Nat.add_zero]
          rw [hhead]
          congr 1
          conv_lhs => rw [hform]
          apply List.map_congr_left
          intro i _
          have hik : k + 1 + i = k + Nat.succ i := by omega
          rw [hik]
          rfl
        · show attempt (k + (rest.length + 1)) = true
          have hlen : k + (rest.length + 1) = k + 1 + rest.length := by omega
          rw [hlen]
          exact hsucc
        · intro j hj
          cases j with
          | zero => simpa using hk
          | succ j =>
            show attempt (k + (j + 1)) = false
            have hjk : k + (j + 1) = k + 1 + j := by omega
            rw [hjk]
            exact hfail j (by simpa using hj)

/-- C5: with locking enabled, whenever `acquireEventually` returns it returns
true, and it does so exactly when, after the recorded failing attempts, an
`acquire` invocation returns true; the k-th sleep between failed attempts
(written with i = k-1 here) lasts `min 10000 (50 * 2 ^ i)` ms — the sequence
50, 100, 200, …, non-decreasing and capped at 10000 ms. -/
theorem acquireEventually_backoff (config : Config) (attempt : Nat → Bool)
    (fuel : Nat) (b : Bool) (sleeps : List Nat)
    (hnl : config.no_locking = false)
    (h : acquireEventually config attempt fuel = some (b, sleeps)) :
    b = true ∧
    sleeps = (List.range sleeps.length).map
      (fun i => min 10000 (50 * 2 ^ i)) ∧
    attempt sleeps.length = true ∧
    (∀ j, j < sleeps.length → attempt j = false) := by
  rw [acquireEventually, if_neg (by simp [hnl])] at h
  cases hloop : acquireLoop attempt 50 0 fuel with
  | none => rw [hloop] at h; cases h
  | some sleeps0 =>
    rw [hloop] at h
    injection h with h
    injection h with hb hs
    subst hb
    subst hs
    have h50 : (50 : Nat) = min 10000 (50 * 2 ^ 0) := by decide
    rw [h50] at hloop
    obtain ⟨hform, hsucc, hfail⟩ := acquireLoop_spec fuel attempt 0 sleeps0 hloop
    refine ⟨rfl, ?_, by simpa using hsucc, fun j hj => by simpa using hfail j hj⟩
    conv_lhs => rw [hform]
    apply List.map_congr_left
    intro i _
    rw [Nat.zero_add]

/-- C5 witness: with the third attempt the first to succeed, the recorded
sleeps are 50 then 100 ms, matching the formula. -/
theorem acquireEventually_backoff_witness :
    ([50, 100] : List Nat) = (List.range (List.length ([50, 100] : List Nat))).map
      (fun i => min 10000 (50 * 2 ^ i)) :=
  (acquireEventually_backoff cfgNoExt (fun n => n == 2) 10 true [50, 100] rfl
    (by decide)).2.1

theorem groupVals_cons_of_pos (rk : String) (tids : List String)
    (rest : List (String × List String)) (r : String) (h : (rk == r) = true) :
    groupVals ((rk, tids) :: rest) r = tids := by
  rw [groupVals,
    List.find?_cons_of_pos rest (show (fun p => p.1 == r) (rk, tids) = true from h)]

theorem groupVals_cons_of_neg (rk : String) (tids : List String)
    (rest : List (String × List String)) (r : String) (h : (rk == r) = false) :
    groupVals ((rk, tids) :: rest) r = groupVals rest r := by
  rw [groupVals, List.find?_cons_of_neg rest (by simp [h]), groupVals]

theorem groupVals_addToGroup_same (m : List (String × List String))
    (r tid : String) :
    groupVals (addToGroup m r tid) r = groupVals m r ++ [tid] := by
  induction m with
  | nil =>
    show groupVals [(r, [tid])] r = groupVals [] r ++ [tid]
    rw [groupVals_cons_of_pos _ _ _ _ (beq_self_eq_true r)]
    rfl
  | cons p rest ih =>
    obtain ⟨rk, tids⟩ := p
    cases hk : (rk == r) with
    | true =>
      simp only [addToGroup]
      rw [if_pos hk, groupVals_cons_of_pos _ _ _ _ hk,
        groupVals_cons_of_pos _ _ _ _ hk]
    | false =>
      simp only [addToGroup]
      rw [if_neg (by simp [hk]), groupVals_cons_of_neg _ _ _ _ hk,
        groupVals_cons_of_neg _ _ _ _ hk]
      exact ih

theorem groupVals_addToGroup_ne (m : List (String × List String))
    (r tid q : String) (hne : (r == q) = false) :
    groupVals (addToGroup m r tid) q = groupVals m q := by
  induction m with
  | nil =>
    show groupVals [(r, [tid])] q = groupVals [] q
    rw [groupVals_cons_of_neg _ _ _ _ hne]
  | cons p rest ih =>
    obtain ⟨rk, tids⟩ := p
    cases hk : (rk == r) with
    | true =>
      simp only [addToGroup]
      rw [if_pos hk]
      have hkq : (rk == q) = false := by
        rw [beq_iff_eq.mp hk]
        exact hne
      rw [groupVals_cons_of_neg _ _ _ _ hkq, groupVals_cons_of_neg _ _ _ _ hkq]
    | false =>
      simp only [addToGroup]
      rw [if_neg (by simp [hk])]
      cases hkq : (rk == q) with
      | true =>
        rw [groupVals_cons_of_pos _ _ _ _ hkq, groupVals_cons_of_pos _ _ _ _ hkq]
      | false =>
        rw [groupVals_cons_of_neg _ _ _ _ hkq, groupVals_cons_of_neg _ _ _ _ hkq]
        exact ih

theorem mem_keys_addToGroup (m : List (String × List String))
    (r tid x : String) :
    x ∈ (addToGroup m r tid).map Prod.fst ↔ x ∈ m.map Prod.fst ∨ x = r := by
  induction m with
  | nil => simp [addToGroup]
  | cons p rest ih =>
    obtain ⟨rk, tids⟩ := p
    cases hk : (rk == r) with
    | true =>
      simp only [addToGroup]
      rw [if_pos hk]
      rw [beq_iff_eq.mp hk]
      simp only [List.map_cons, List.mem_cons]
      tauto
    | false =>
      simp only [addToGroup]
      rw [if_neg (by simp [hk])]
      simp only [List.map_cons, List.mem_cons, ih]
      tauto

theorem vals_addToGroup (m : List (String × List String)) (r tid : String)
    (h : ∀ p ∈ m, p.2 ≠ []) : ∀ p ∈ addToGroup m r tid, p.2 ≠ [] := by
  induction m with
  | nil =>
    intro p hp
    have hp' : p = (r, [tid]) := by simpa [addToGroup] using hp
    rw [hp']
    simp
  | cons q rest ih =>
    obtain ⟨rk, tids⟩ := q
    cases hk : (rk == r) with
    | true =>
      simp only [addToGroup]
      rw [if_pos hk]
      intro p hp
      rcases List.mem_cons.mp hp with rfl | hp
      · simp
      · exact h p (List.mem_cons_of_mem _ hp)
    | false =>
      simp only [addToGroup]
      rw [if_neg (by simp [hk])]
      intro p hp
      rcases List.mem_cons.mp hp with rfl | hp
      · exact h _ (List.mem_cons_self _ _)
      · exact ih (fun q hq => h q (List.mem_cons_of_mem _ hq)) p hp

theorem keys_nodup_addToGroup (m : List (String × List String))
    (r tid : String) (h : (m.map Prod.fst).Nodup) :
    ((addToGroup m r tid).map Prod.fst).Nodup := by
  induction m with
  | nil => simp [addToGroup]
  | cons q rest ih =>
    obtain ⟨rk, tids⟩ := q
    rw [List.map_cons, List.nodup_cons] at h
    cases hk : (rk == r) with
    | true =>
      simp only [addToGroup]
      rw [if_pos hk, List.map_cons, List.nodup_cons]
      exact h
    | false =>
      simp only [addToGroup]
      rw [if_neg (by simp [hk]), List.map_cons, List.nodup_cons]
      refine ⟨?_, ih h.2⟩
      intro hmem
      rcases (mem_keys_addToGroup rest r tid rk).mp hmem with hmem | heq
      · exact h.1 hmem
      · rw [heq] at hk
        simp at hk

theorem goodGroups_addToGroup (m : List (String × List String))
    (r tid : String) (h : goodGroups m) : goodGroups (addToGroup m r tid) :=
  ⟨vals_addToGroup m r tid h.1, keys_nodup_addToGroup m r tid h.2⟩

theorem mem_iff_groupVals (m : List (String × List String))
    (h : goodGroups m) (r : String) (tids : List String) :
    (r, tids) ∈ m ↔ (tids ≠ [] ∧ groupVals m r = tids) := by
  induction m with
  | nil =>
    constructor
    · intro hmem; cases hmem
    · rintro ⟨hne, hgv⟩
      exact absurd hgv.symm hne
  | cons q rest ih =>
    obtain ⟨rk, tids'⟩ := q
    obtain ⟨hvals, hkeys⟩ := h
    rw [List.map_cons, List.nodup_cons] at hkeys
    have hgrest : goodGroups rest :=
      ⟨fun p hp => hvals p (List.mem_cons_of_mem _ hp), hkeys.2⟩
    cases hk : (rk == r) with
    | true =>
      have hrk : rk = r := beq_iff_eq.mp hk
      subst hrk
      rw [groupVals_cons_of_pos _ _ _ _ hk]
      constructor
      · intro hmem
        rcases List.mem_cons.mp hmem with heq | hmem
        · injection heq with _ h2
          exact ⟨h2 ▸ hvals (rk, tids') (List.mem_cons_self _ _), h2.symm⟩
        · exact absurd (List.mem_map_of_mem Prod.fst hmem) hkeys.1
      · rintro ⟨hne, rfl⟩
        exact List.mem_cons_self _ _
    | false =>
      rw [groupVals_cons_of_neg _ _ _ _ hk]
      rw [← ih hgrest]
      constructor
      · intro hmem
        rcases List.mem_cons.mp hmem with heq | hmem
        · injection heq with h1 _
          rw [h1] at hk
          simp at hk
        · exact hmem
      · exact fun hmem => List.mem_cons_of_mem _ hmem

theorem groupVals_foldl_resources (rs : List String) (tid : String) :
    ∀ (m : List (String × List String)) (q : String),
    groupVals (rs.foldl (fun m x => addToGroup m x tid) m) q
      = groupVals m q ++ (rs.filter (fun x => x == q)).map (fun _ => tid) := by
  induction rs with
  | nil => intro m q; simp
  | cons x rest ih =>
    intro m q
    rw [List.foldl_cons, ih (addToGroup m x tid) q]
    cases hx : (x == q) with
    | true =>
      have hxq : x = q := beq_iff_eq.mp hx
      subst hxq
      rw [groupVals_addToGroup_same m x tid]
      simp [List.filter_cons, hx, List.append_assoc]
    | false =>
      rw [groupVals_addToGroup_ne m x tid q hx]
      simp [List.filter_cons, hx]

theorem goodGroups_foldl_resources (rs : List String) (tid : String) :
    ∀ m, goodGroups m →
    goodGroups (rs.foldl (fun m x => addToGroup m x tid) m) := by
  induction rs with
  | nil => intro m h; exact h
  | cons x rest ih =>
    intro m h
    rw [List.foldl_cons]
    exact ih _ (goodGroups_addToGroup m x tid h)

theorem groupVals_tasks_foldl (tasks : List Task) :
    ∀ (m : List (String × List String)) (q : String),
    groupVals (tasks.foldl (fun m t => t.resources.foldl
      (fun m r => addToGroup m r t.id) m) m) q
      = groupVals m q ++ occList tasks q := by
  induction tasks with
  | nil => intro m q; simp [occList]
  | cons t ts ih =>
    intro m q
    rw [List.foldl_cons, ih, groupVals_foldl_resources]
    simp only [occList]
    rw [List.append_assoc]

theorem goodGroups_tasks_foldl (tasks : List Task) : ∀ m, goodGroups m →
    goodGroups (tasks.foldl (fun m t => t.resources.foldl
      (fun m r => addToGroup m r t.id) m) m) := by
  induction tasks with
  | nil => intro m h; exact h
  | cons t ts ih =>
    intro m h
    rw [List.foldl_cons]
    exact ih _ (goodGroups_foldl_resources t.resources t.id m h)

theorem goodGroups_tasksByResource (tasks : List Task) :
    goodGroups (tasksByResource tasks) :=
  goodGroups_tasks_foldl tasks []
    ⟨fun p hp => absurd hp (List.not_mem_nil p), List.nodup_nil⟩

theorem groupVals_tasksByResource (tasks : List Task) (q : String) :
    groupVals (tasksByResource tasks) q = occList tasks q := by
  have h := groupVals_tasks_foldl tasks [] q
  rw [show groupVals [] q = [] from rfl, List.nil_append] at h
  exact h

/-- C9 counterexample: a single task declaring the same resource twice is
reported as a conflict by `listConflicts`, although the resource is claimed by
only one task of the batch. -/
theorem listConflicts_single_task_cex :
    listConflicts [⟨"A", ["r1", "r1"]⟩] = [("r1", ["A", "A"])] ∧
    (List.filter (fun t => t.resources.contains ("r1"))
      [Task.mk ("A") ["r1", "r1"]]).length = 1 := by decide

/-- C9 (amended): `listConflicts` reports exactly those resources with more
than one declaration occurrence across the batch (occurrences counted with
multiplicity, so a task declaring a resource twice is itself reported), each
with the ids of the declaring tasks in traversal order with multiplicity; it
is a pure function of the batch and touches no lock state.  Over the batch
A:[r1], B:[r1], C:[r2] it reports exactly one conflict, r1 with A B. -/
theorem listConflicts_spec (tasks : List Task) (r : String)
    (tids : List String) :
    ((r, tids) ∈ listConflicts tasks ↔
      2 ≤ (occList tasks r).length ∧ tids = occList tasks r) ∧
    listConflicts [⟨"A", ["r1"]⟩, ⟨"B", ["r1"]⟩, ⟨"C", ["r2"]⟩]
      = [("r1", ["A", "B"])] := by
  refine ⟨?_, by decide⟩
  rw [listConflicts]
  constructor
  · intro hm
    obtain ⟨hmem, hlen⟩ := List.mem_filter.mp hm
    obtain ⟨hne, hgv⟩ :=
      (mem_iff_groupVals _ (goodGroups_tasksByResource tasks) r tids).mp hmem
    rw [groupVals_tasksByResource] at hgv
    have hlen' : tids.length ≠ 1 := by simpa using hlen
    have hlen0 : tids.length ≠ 0 := fun h0 =>
      hne (List.length_eq_zero.mp h0)
    rw [hgv]
    exact ⟨by omega, rfl⟩
  · rintro ⟨hlen, rfl⟩
    apply List.mem_filter.mpr
    refine ⟨?_, by simp; omega⟩
    apply (mem_iff_groupVals _ (goodGroups_tasksByResource tasks) r _).mpr
    refine ⟨?_, groupVals_tasksByResource tasks r⟩
    intro h0
    rw [h0] at hlen
    simp at hlen

/-- C9 witness: the canonical three-task batch reports its one conflict. -/
theorem listConflicts_spec_witness :
    ("r1", ["A", "B"]) ∈
      listConflicts [⟨"A", ["r1"]⟩, ⟨"B", ["r1"]⟩, ⟨"C", ["r2"]⟩] :=
  (listConflicts_spec [⟨"A", ["r1"]⟩, ⟨"B", ["r1"]⟩, ⟨"C", ["r2"]⟩] ("r1")
    ["A", "B"]).1.mpr ⟨by decide, by decide⟩

/-- C10 witness: resources a,a acquire (external locking disabled) and the
paired release fails fatally at the second a. -/
theorem duplicate_resource_release_fatal_witness :
    (acquire cfgNoExt [] ⟨"T", ["a", "a"]⟩ extOk2).result = true ∧
    (release cfgNoExt ((acquire cfgNoExt [] ⟨"T", ["a", "a"]⟩ extOk2).locks)
      ⟨"T", ["a", "a"]⟩ extOk1).fatal = some ("a") :=
  ⟨(duplicate_resource_release_fatal cfgNoExt [] ("a") ⟨"T", ["a", "a"]⟩
      extOk2 extOk1 rfl rfl rfl (Or.inl rfl)).1,
   (duplicate_resource_release_fatal cfgNoExt [] ("a") ⟨"T", ["a", "a"]⟩
      extOk2 extOk1 rfl rfl rfl (Or.inl rfl)).2.1⟩

/-- C6: for a task with an empty resource list, and for every task when
locking is globally disabled, `acquire` and `acquireEventually` return true
and `release` completes without fatal error, with the Local Lock Set unchanged
and the External Coordination Client never invoked. -/
theorem trivial_tasks_no_side_effects (config : Config) (locks : List String)
    (task : Task) (ea : List String → Nat → ExtResult)
    (er : List String → ExtResult) (fuel : Nat)
    (h : task.resources = [] ∨ config.no_locking = true) :
    acquire config locks task ea = ⟨true, locks, []⟩ ∧
    release config locks task er = ⟨none, locks, []⟩ ∧
    acquireEventually config (fun _ => (acquire config locks task ea).result)
      (fuel + 1) = some (true, []) := by
  have hacq : acquire config locks task ea = ⟨true, locks, []⟩ := by
    by_cases hnl : config.no_locking = true
    · simp [acquire, hnl]
    · rcases h with h | h
      · simp [acquire, h, Bool.not_eq_true _ |>.mp hnl]
      · exact absurd h hnl
  refine ⟨hacq, ?_, ?_⟩
  · by_cases hnl : config.no_locking = true
    · simp [release, hnl]
    · rcases h with h | h
      · simp [release, h, Bool.not_eq_true _ |>.mp hnl]
      · exact absurd h hnl
  · by_cases hnl : config.no_locking = true
    · simp [acquireEventually, hnl]
    · simp [acquireEventually, Bool.not_eq_true _ |>.mp hnl, acquireLoop, hacq]

/-- C6 witness at a concrete input: locking globally disabled. -/
theorem trivial_tasks_no_side_effects_witness :
    acquire cfgOff ["x"] ⟨"T", ["r"]⟩ extOk2 = ⟨true, ["x"], []⟩ ∧
    release cfgOff ["x"] ⟨"T", ["r"]⟩ extOk1 = ⟨none, ["x"], []⟩ :=
  ⟨(trivial_tasks_no_side_effects cfgOff ["x"] ⟨"T", ["r"]⟩ extOk2 extOk1 0
      (Or.inr rfl)).1,
   (trivial_tasks_no_side_effects cfgOff ["x"] ⟨"T", ["r"]⟩ extOk2 extOk1 0
      (Or.inr rfl)).2.1⟩

/-- C7: `shutdown` fails fatally if and only if the Local Lock Set is
non-empty; the External Coordination Client connection is torn down in every
case (before the assertion), and the set itself is not mutated. -/
theorem shutdown_fatal_iff_nonempty (locks : List String) :
    ((shutdown locks).fatal = true ↔ locks ≠ []) ∧
    (shutdown locks).externalShutdownCalled = true ∧
    (shutdown locks).locks = locks := by
  refine ⟨?_, rfl, rfl⟩
  cases locks <;> simp [shutdown]

/-- C7 witness at a concrete input: one leaked lock is fatal. -/
theorem shutdown_fatal_iff_nonempty_witness :
    (shutdown ["a"]).fatal = true :=
  (shutdown_fatal_iff_nonempty ["a"]).1.mpr (by decide)

/-- C8: validation passes if and only if locking is globally disabled (the
check is skipped) or every declared resource name matches `[A-Za-z0-9_-]+`;
a fatal failure identifies the offending task and the (first) offending name,
which indeed is a declared name failing the syntax.  The validator reads only
the configuration and the task, so it mutates no state. -/
theorem annotateTaskResources_spec (config : Config) (task : Task) :
    (annotateTaskResources config task = none ↔
      (config.no_locking = true ∨ task.resources.all validResourceName = true)) ∧
    (∀ tid r, annotateTaskResources config task = some (tid, r) →
      config.no_locking = false ∧ tid = task.id ∧ r ∈ task.resources ∧
        validResourceName r = false) := by
  constructor
  · by_cases hnl : config.no_locking = true
    · simp [annotateTaskResources, hnl]
    · have hb := Bool.not_eq_true _ |>.mp hnl
      simp only [annotateTaskResources, hb, Bool.false_eq_true, if_false]
      cases hf : task.resources.find? (fun r => !validResourceName r) with
      | none =>
        simp only [hb, Bool.false_eq_true, false_or]
        constructor
        · intro _
          refine List.all_eq_true.mpr (fun x hx => ?_)
          have := List.find?_eq_none.mp hf x hx
          simpa using this
        · intro _; trivial
      | some r =>
        simp only [hb, Bool.false_eq_true, false_or]
        constructor
        · intro hcontra; cases hcontra
        · intro hall
          have hmem := List.mem_of_find?_eq_some hf
          have hr := List.find?_some hf
          have := List.all_eq_true.mp hall r hmem
          rw [this] at hr
          cases hr
  · intro tid r hsome
    by_cases hnl : config.no_locking = true
    · rw [annotateTaskResources, if_pos hnl] at hsome
      cases hsome
    · have hb := Bool.not_eq_true _ |>.mp hnl
      rw [annotateTaskResources, if_neg hnl] at hsome
      cases hf : task.resources.find? (fun r => !validResourceName r) with
      | none => rw [hf] at hsome; cases hsome
      | some r' =>
        rw [hf] at hsome
        injection hsome with hpair
        injection hpair with h1 h2
        subst h1; subst h2
        refine ⟨hb, rfl, List.mem_of_find?_eq_some hf, ?_⟩
        have hr := List.find?_some hf
        simpa using hr

/-- C8 witness at a concrete input: a name with a space is rejected, with the
task id and the name reported. -/
theorem annotateTaskResources_spec_witness :
    cfgNoExt.no_locking = false ∧ ("T") = Task.id ⟨"T", ["bad name"]⟩ ∧
    ("bad name") ∈ Task.resources ⟨"T", ["bad name"]⟩ ∧
    validResourceName ("bad name") = false :=
  (annotateTaskResources_spec cfgNoExt ⟨"T", ["bad name"]⟩).2 ("T") ("bad name")
    (by decide)

end Pentf
